import Mathlib

/-!
Verification of the hlb Pygments lexer grammar (src/language/hlb-pygments.py).

The lexer is a Pygments `RegexLexer`: a dictionary of named states, each an
ordered list of rules `(regex, token-kinds, optional state to push)`.  Scanning
tries the rules of the active state (top of the state stack) in order at the
cursor; the first rule whose regex matches at the cursor is accepted, its
capture groups are emitted as tokens, the cursor advances by the match length,
and the rule's target state (if any) is pushed.  No rule of this grammar ever
pops the stack.

Each regex of the grammar is embedded below as an explicit matching function on
`List Char`, faithful to Python `re` semantics for that particular pattern
(ordered alternation, greedy quantifiers with the backtracking behaviour worked
out per pattern, `\b` word boundaries via the character before the cursor).
One deliberate simplification: `\w` under `re.UNICODE` also counts non-ASCII
letters as word characters; here `isWordChar` is the ASCII `[a-zA-Z0-9_]`.
All properties proved below are insensitive to this (the quantified claims
hold for every definition of the word class, and the concrete traces use
ASCII inputs only).
-/

namespace Hlb

/-- Token categories used by the grammar (Pygments token types). -/
inductive TokenKind where
  | CommentSingle   -- Comment.Single
  | NameConstant    -- Name.Constant
  | Punctuation     -- Punctuation
  | KeywordType     -- Keyword.Type
  | Keyword         -- Keyword
  | NameVariable    -- Name.Variable
  | NameBuiltin     -- Name.Builtin
  | GenericError    -- Generic.Error
  | Str             -- String (the raw-text fallback kind)
deriving DecidableEq, Repr

/-- The named states of the `tokens` dictionary. -/
inductive State where
  | root
  | binding
  | block
  | common__1
  | common__2
  | params
deriving DecidableEq, Repr

/-- One emitted token: a kind together with the exact matched text. -/
abbrev Piece := TokenKind × List Char

/-- Result of one accepted rule: the emitted tokens (one per capture group, in
order), the state pushed by the rule (if any), and the remaining input. -/
structure StepOut where
  pieces : List Piece
  push : Option State
  rest : List Char
deriving DecidableEq, Repr

/-- Python `\w` word characters (ASCII fragment, see module comment). -/
def isWordChar (c : Char) : Bool := c.isAlphanum || c == '_'

/-- Whether the character before the cursor (none at offset 0) is a word
character; `\b` before a word character holds iff this is `false`. -/
def optWord : Option Char → Bool
  | none => false
  | some c => isWordChar c

/-- The whitespace class `[\t ]` used by the grammar. -/
def isWs (c : Char) : Bool := c == '\t' || c == ' '

/-- Hex digit class `[a-fA-F0-9]`. -/
def isHexDigitChar (c : Char) : Bool :=
  c.isDigit || ('a' ≤ c && c ≤ 'f') || ('A' ≤ c && c ≤ 'F')

/-- Radix letter class `(b|B|o|O|x|X)`. -/
def isRadix (c : Char) : Bool :=
  c == 'b' || c == 'B' || c == 'o' || c == 'O' || c == 'x' || c == 'X'

/-- Strip a literal word from the front of the input. -/
def stripWord : List Char → List Char → Option (List Char)
  | [], s => some s
  | _ :: _, [] => none
  | c :: w, d :: s => if c == d then stripWord w s else none

/-- Ordered alternation fallback on `Option`. -/
def orE {α : Type} : Option α → Option α → Option α
  | some a, _ => some a
  | none, y => y

/-- Match a literal word followed by a `\b` word boundary (the word ends in a
word character, so the boundary holds iff the next character is not a word
character or the input ends). -/
def kwAfter (w : List Char) (s : List Char) : Option (List Char × List Char) :=
  match stripWord w s with
  | some r => if optWord r.head? then none else some (w, r)
  | none => none

/-- Ordered alternation `(w1|w2|...)\b` over literal words: first alternative
that matches (with its boundary) wins, exactly as Python tries alternatives
left to right re-checking the trailing `\b` for each. -/
def firstKw : List (List Char) → List Char → Option (List Char × List Char)
  | [], _ => none
  | w :: ws, s => orE (kwAfter w s) (firstKw ws s)

/-! ## The word lists of the grammar -/

/-- The simple type keywords `string|int|bool|fs|group` (each `\b`-delimited). -/
def simpleTypeWords : List (List Char) :=
  ["string", "int", "bool", "fs", "group"].map String.toList

/-- The dotted-type suffixes of `option::(?:...)`. -/
def optionSubWords : List (List Char) :=
  ["copy", "frontend", "git", "http", "image", "local", "mkdir", "mkfile",
   "mount", "rm", "run", "secret", "ssh", "template"].map String.toList

/-- The control keywords `import|export|from|as|with|variadic`. -/
def controlWords : List (List Char) :=
  ["import", "export", "from", "as", "with", "variadic"].map String.toList

/-- The closed set of option-field names excluded by the negative lookahead of
the `block` state's generic-variable rule (and therefore classified as
`Name.Builtin` by the following rule). -/
def fieldWords : List (List Char) :=
  ["allowEmptyWildcard", "allowNotFound", "allowWildcard", "cache", "checksum",
   "chmod", "chown", "contentsOnly", "copy", "createDestPath", "createParents",
   "createdTime", "dir", "dockerLoad", "dockerPush", "download",
   "downloadDockerTarball", "downloadOCITarball", "downloadTarball", "env",
   "excludePatterns", "filename", "followPaths", "followSymlinks", "format",
   "forward", "frontend", "gid", "git", "host", "http", "id", "ignoreCache",
   "image", "includePatterns", "input", "insecure", "keepGitDir", "local",
   "localEnv", "localPaths", "locked", "mkdir", "mkfile", "mode", "mount",
   "network", "node", "opt", "parallel", "private", "readonly",
   "readonlyRootfs", "resolve", "rm", "run", "sandbox", "scratch", "secret",
   "security", "shared", "sourcePath", "ssh", "stringField", "target",
   "template", "tmpfs", "uid", "unix", "unpack", "unset", "user",
   "value"].map String.toList

/-! ## Matchers, one per regex of the grammar

Each matcher takes the input at the cursor (and, where the pattern starts with
`\b`, the flag `pw` saying whether the character before the cursor is a word
character) and returns the matched capture-group texts and the remaining
input, or `none` when the regex does not match at the cursor. -/

/-- Rule regex `(#.*)`: `#` then everything up to (excluding) the next `\n`
(`.` does not match `\n`; it does match `\r`). -/
def matchComment : List Char → Option (List Char × List Char)
  | '#' :: rest =>
      some ('#' :: rest.takeWhile (fun c => c != '\n'),
            rest.dropWhile (fun c => c != '\n'))
  | _ => none

/-- Rule regex `((\b(0(b|B|o|O|x|X)[a-fA-F0-9]+)\b)|(\b(0|[1-9][0-9]*)\b)|(\b(true|false)\b))`.
Alternatives are tried in order.  The trailing `\b` after a greedy digit run
cannot be rescued by backtracking (a shorter run is followed by a digit, a word
character), so each alternative is maximal munch plus a boundary test. -/
def matchNumber (pw : Bool) (s : List Char) : Option (List Char × List Char) :=
  if pw then none else
  orE
    (match s with
     | '0' :: b :: rest =>
         if isRadix b then
           if (rest.takeWhile isHexDigitChar).isEmpty then none
           else if optWord (rest.dropWhile isHexDigitChar).head? then none
           else some ('0' :: b :: rest.takeWhile isHexDigitChar,
                      rest.dropWhile isHexDigitChar)
         else none
     | _ => none)
    (orE
      (match s with
       | '0' :: rest => if optWord rest.head? then none else some (['0'], rest)
       | c :: rest =>
           if '1' ≤ c && c ≤ '9' then
             if optWord (rest.dropWhile Char.isDigit).head? then none
             else some (c :: rest.takeWhile Char.isDigit, rest.dropWhile Char.isDigit)
           else none
       | [] => none)
      (firstKw (["true", "false"].map String.toList) s))

/-- Rule regex `(<<[-~]?)([A-Z]+)`: the heredoc sigil and the greedy all-caps
tag (if the optional `-`/`~` is present but no capital follows, dropping the
optional character cannot rescue the match, since `-`/`~` are not capitals). -/
def heredocTag (sig : List Char) (r2 : List Char) :
    Option (List Char × List Char × List Char) :=
  if (r2.takeWhile Char.isUpper).isEmpty then none
  else some (sig, r2.takeWhile Char.isUpper, r2.dropWhile Char.isUpper)

def matchHeredoc (s : List Char) : Option (List Char × List Char × List Char) :=
  match s with
  | '<' :: '<' :: r =>
      match r with
      | c :: r' =>
          if c == '-' || c == '~' then heredocTag ['<', '<', c] r'
          else heredocTag ['<', '<'] (c :: r')
      | [] => heredocTag ['<', '<'] []
  | _ => none

/-- Rule regex
`(\bstring\b|\bint\b|\bbool\b|\bfs\b|\bgroup\b|\boption(?!::)\b|\boption::(?:copy|...|template)\b)`:
ordered alternation of `\b`-delimited type keywords; bare `option` only when
not followed by `::`, and the dotted family otherwise. -/
def matchTypeKw (pw : Bool) (s : List Char) : Option (List Char × List Char) :=
  if pw then none else
  orE (firstKw simpleTypeWords s)
    (orE
      (match stripWord ("option".toList) s with
       | some r =>
           if (stripWord [':', ':'] r).isSome then none
           else if optWord r.head? then none
           else some ("option".toList, r)
       | none => none)
      (match stripWord ("option::".toList) s with
       | some r =>
           match firstKw optionSubWords r with
           | some (w, r2) => some ("option::".toList ++ w, r2)
           | none => none
       | none => none))

/-- Rule regex `(\b(import|export|from|as|with|variadic)\b)`. -/
def matchControlKw (pw : Bool) (s : List Char) : Option (List Char × List Char) :=
  if pw then none else firstKw controlWords s

/-- The identifier fragment `\b[a-zA-Z_][a-zA-Z0-9]*\b`: a `\b` before the
first character (a letter or underscore), then a greedy run of `[a-zA-Z0-9]`
(note: no underscore), then a `\b`.  The trailing boundary cannot be rescued by
a shorter run (the following character would be alphanumeric), so the match is
maximal munch followed by a boundary test. -/
def matchIdent (pw : Bool) (s : List Char) : Option (List Char × List Char) :=
  if pw then none else
  match s with
  | c :: rest =>
      if c.isAlpha || c == '_' then
        if optWord (rest.dropWhile Char.isAlphanum).head? then none
        else some (c :: rest.takeWhile Char.isAlphanum, rest.dropWhile Char.isAlphanum)
      else none
  | [] => none

/-- Rule regex `((?:[\t ]+)as(?:[\t ]+))(\()` (in `root`): whitespace, `as`,
whitespace, then `(`; group 1 is the keyword text including the surrounding
whitespace.  Returns (group 1, input after the `(`). -/
def matchWsAsParen (s : List Char) : Option (List Char × List Char) :=
  if (s.takeWhile isWs).isEmpty then none else
  match stripWord ['a', 's'] (s.dropWhile isWs) with
  | some r =>
      if (r.takeWhile isWs).isEmpty then none else
      match r.dropWhile isWs with
      | '(' :: rest => some (s.takeWhile isWs ++ ['a', 's'] ++ r.takeWhile isWs, rest)
      | _ => none
  | none => none

/-- Rule regex `((?:[\t ]+)with(?:[\t ]+))` (in `block`): whitespace, `with`,
whitespace, all of it one keyword token. -/
def matchWsWithWs (s : List Char) : Option (List Char × List Char) :=
  if (s.takeWhile isWs).isEmpty then none else
  match stripWord ("with".toList) (s.dropWhile isWs) with
  | some r =>
      if (r.takeWhile isWs).isEmpty then none else
      some (s.takeWhile isWs ++ "with".toList ++ r.takeWhile isWs, r.dropWhile isWs)
  | none => none

/-- Rule regex `(as)((?:[\t ]+))(\b[a-zA-Z_][a-zA-Z0-9]*\b)` (in `block`);
note there is no `\b` before `as`.  Returns (whitespace, identifier, rest);
the identifier's leading `\b` holds because the character before it is
whitespace. -/
def matchAsIdent (s : List Char) : Option (List Char × List Char × List Char) :=
  match stripWord ['a', 's'] s with
  | some r =>
      if (r.takeWhile isWs).isEmpty then none else
      match matchIdent false (r.dropWhile isWs) with
      | some (name, rest) => some (r.takeWhile isWs, name, rest)
      | none => none
  | none => none

/-- Rule regex `(as)((?:[\t ]+))(\()` (in `block`). -/
def matchAsParen (s : List Char) : Option (List Char × List Char) :=
  match stripWord ['a', 's'] s with
  | some r =>
      if (r.takeWhile isWs).isEmpty then none else
      match r.dropWhile isWs with
      | '(' :: rest => some (r.takeWhile isWs, rest)
      | _ => none
  | none => none

/-- Rule regex `(type-alternation)((?:[\t ]+))(\{)` (in `block`): a type
keyword, whitespace, then `{`.  The type alternatives are mutually exclusive at
any one position, so no cross-alternative backtracking arises. -/
def matchTypeBlock (pw : Bool) (s : List Char) :
    Option (List Char × List Char × List Char) :=
  match matchTypeKw pw s with
  | some (ty, r) =>
      if (r.takeWhile isWs).isEmpty then none else
      match r.dropWhile isWs with
      | '{' :: rest => some (ty, r.takeWhile isWs, rest)
      | _ => none
  | none => none

/-- Rule regex `(\b((?!(allowEmptyWildcard|...|value)\b)[a-zA-Z_][a-zA-Z0-9]*\b))`
(in `block`): an identifier whose start is not one of the closed field-name
words followed by a `\b`. -/
def matchFieldVar (pw : Bool) (s : List Char) : Option (List Char × List Char) :=
  if (firstKw fieldWords s).isSome then none else matchIdent pw s

/-- Rule regex `(\b[a-zA-Z_][a-zA-Z0-9]*\b)((?:[\t ]+))(\b[a-zA-Z_][a-zA-Z0-9]*\b)`
(in `binding`). -/
def matchBindingPair (pw : Bool) (s : List Char) :
    Option (List Char × List Char × List Char × List Char) :=
  match matchIdent pw s with
  | some (n1, r) =>
      if (r.takeWhile isWs).isEmpty then none else
      match matchIdent false (r.dropWhile isWs) with
      | some (n2, rest) => some (n1, r.takeWhile isWs, n2, rest)
      | none => none
  | none => none

/-! ## Rules and state tables -/

/-- A rule: given the previous-character-is-a-word-character flag and the input
at the cursor, either the accepted step or `none`. -/
def Rule := Bool → List Char → Option StepOut

def commentRule : Rule := fun _ s =>
  (matchComment s).map fun p => ⟨[(TokenKind.CommentSingle, p.1)], none, p.2⟩

def numberRule : Rule := fun pw s =>
  (matchNumber pw s).map fun p => ⟨[(TokenKind.NameConstant, p.1)], none, p.2⟩

/-- Rule `(u'(\")', bygroups(Punctuation), 'common__1')`. -/
def quoteRule : Rule := fun _ s =>
  match s with
  | '"' :: rest => some ⟨[(TokenKind.Punctuation, ['"'])], some State.common__1, rest⟩
  | _ => none

/-- Rule `(u'(<<[-~]?)([A-Z]+)', bygroups(Punctuation, Name.Constant), 'common__2')`. -/
def heredocRule : Rule := fun _ s =>
  (matchHeredoc s).map fun p =>
    ⟨[(TokenKind.Punctuation, p.1), (TokenKind.NameConstant, p.2.1)],
     some State.common__2, p.2.2⟩

def typeKwRule : Rule := fun pw s =>
  (matchTypeKw pw s).map fun p => ⟨[(TokenKind.KeywordType, p.1)], none, p.2⟩

def controlKwRule : Rule := fun pw s =>
  (matchControlKw pw s).map fun p => ⟨[(TokenKind.Keyword, p.1)], none, p.2⟩

/-- Rule `(u'(\b[a-zA-Z_][a-zA-Z0-9]*\b)(\()', bygroups(Name.Variable, Punctuation), 'params')`. -/
def identParenRule : Rule := fun pw s =>
  match matchIdent pw s with
  | some (name, r) =>
      match r with
      | '(' :: rest =>
          some ⟨[(TokenKind.NameVariable, name), (TokenKind.Punctuation, ['('])],
                some State.params, rest⟩
      | _ => none
  | none => none

/-- Rule `(u'(\))', bygroups(Generic.Error))`. -/
def parenCloseRule : Rule := fun _ s =>
  match s with
  | ')' :: rest => some ⟨[(TokenKind.GenericError, [')'])], none, rest⟩
  | _ => none

def wsAsParenRule : Rule := fun _ s =>
  (matchWsAsParen s).map fun p =>
    ⟨[(TokenKind.Keyword, p.1), (TokenKind.Punctuation, ['('])],
     some State.params, p.2⟩

/-- Rule `(u'(\{)', bygroups(Punctuation), 'block')`. -/
def braceOpenRule : Rule := fun _ s =>
  match s with
  | '{' :: rest => some ⟨[(TokenKind.Punctuation, ['{'])], some State.block, rest⟩
  | _ => none

/-- Rule `(u'(\})', bygroups(Generic.Error))`. -/
def braceCloseRule : Rule := fun _ s =>
  match s with
  | '}' :: rest => some ⟨[(TokenKind.GenericError, ['}'])], none, rest⟩
  | _ => none

def identVarRule : Rule := fun pw s =>
  (matchIdent pw s).map fun p => ⟨[(TokenKind.NameVariable, p.1)], none, p.2⟩

/-- Rule `('(\n|\r|\r\n)', String)`: ordered alternation, so the `\r\n`
alternative is dead (`\r` already matches its first character); exactly one
newline character is consumed per match. -/
def newlineRule : Rule := fun _ s =>
  match s with
  | c :: rest =>
      if c == '\n' then some ⟨[(TokenKind.Str, [c])], none, rest⟩
      else if c == '\r' then some ⟨[(TokenKind.Str, [c])], none, rest⟩
      else none
  | [] => none

/-- Rule `('.', String)`: any single character except `\n`. -/
def dotRule : Rule := fun _ s =>
  match s with
  | c :: rest => if c == '\n' then none else some ⟨[(TokenKind.Str, [c])], none, rest⟩
  | [] => none

def bindingPairRule : Rule := fun pw s =>
  (matchBindingPair pw s).map fun p =>
    ⟨[(TokenKind.NameBuiltin, p.1), (TokenKind.Punctuation, p.2.1),
      (TokenKind.NameVariable, p.2.2.1)], none, p.2.2.2⟩

def wsWithWsRule : Rule := fun _ s =>
  (matchWsWithWs s).map fun p => ⟨[(TokenKind.Keyword, p.1)], none, p.2⟩

def asIdentRule : Rule := fun _ s =>
  (matchAsIdent s).map fun p =>
    ⟨[(TokenKind.Keyword, ['a', 's']), (TokenKind.Punctuation, p.1),
      (TokenKind.NameVariable, p.2.1)], none, p.2.2⟩

def asParenRule : Rule := fun _ s =>
  (matchAsParen s).map fun p =>
    ⟨[(TokenKind.Keyword, ['a', 's']), (TokenKind.Punctuation, p.1),
      (TokenKind.Punctuation, ['('])], some State.binding, p.2⟩

def typeBlockRule : Rule := fun pw s =>
  (matchTypeBlock pw s).map fun p =>
    ⟨[(TokenKind.KeywordType, p.1), (TokenKind.Punctuation, p.2.1),
      (TokenKind.Punctuation, ['{'])], some State.block, p.2.2⟩

def fieldVarRule : Rule := fun pw s =>
  (matchFieldVar pw s).map fun p => ⟨[(TokenKind.NameVariable, p.1)], none, p.2⟩

def identBuiltinRule : Rule := fun pw s =>
  (matchIdent pw s).map fun p => ⟨[(TokenKind.NameBuiltin, p.1)], none, p.2⟩

/-- Rule `(u'(variadic)', bygroups(Keyword))` (no `\b` around it). -/
def variadicRule : Rule := fun _ s =>
  (stripWord ("variadic".toList) s).map fun r =>
    ⟨[(TokenKind.Keyword, "variadic".toList)], none, r⟩

/-- The ordered rule tables of the `tokens` dictionary, in source order (the
`root` table really does list the `(\))` rule twice). -/
def State.table : State → List Rule
  | State.root =>
      [commentRule, numberRule, quoteRule, heredocRule, typeKwRule,
       controlKwRule, identParenRule, parenCloseRule, wsAsParenRule,
       parenCloseRule, braceOpenRule, braceCloseRule, identVarRule,
       newlineRule, dotRule]
  | State.binding => [bindingPairRule, newlineRule, dotRule]
  | State.block =>
      [commentRule, numberRule, quoteRule, heredocRule, wsWithWsRule,
       asIdentRule, asParenRule, typeBlockRule, fieldVarRule,
       identBuiltinRule, newlineRule, dotRule]
  | State.common__1 => [newlineRule, dotRule]
  | State.common__2 => [newlineRule, dotRule]
  | State.params => [variadicRule, typeKwRule, identVarRule, newlineRule, dotRule]

/-- First rule of the list that matches at the cursor wins. -/
def firstSome : List Rule → Bool → List Char → Option StepOut
  | [], _, _ => none
  | r :: rs, pw, s =>
      match r pw s with
      | some o => some o
      | none => firstSome rs pw s

/-- One scan-loop iteration in state `st`. -/
def stepState (st : State) (pw : Bool) (s : List Char) : Option StepOut :=
  firstSome st.table pw s

/-! ## The scan loop -/

/-- Concatenation of the texts of a list of emitted tokens. -/
def joinPieces (ps : List Piece) : List Char := (ps.map Prod.snd).flatten

def pushTo : Option State → List State → List State
  | none, stack => stack
  | some st, stack => st :: stack

/-- The previous-character flag after consuming `consumed` (nonempty in every
reachable call, so the `none` branch is never taken). -/
def nextPw (pw : Bool) (consumed : List Char) : Bool :=
  match consumed.getLast? with
  | some c => isWordChar c
  | none => pw

/-- A scanner configuration: the state stack (top first), the
previous-character flag, and the remaining input. -/
structure Config where
  stack : List State
  pw : Bool
  input : List Char
deriving DecidableEq, Repr

/-- One iteration of the scan loop: apply the active state's table; `none`
exactly when the input is exhausted. -/
def step (c : Config) : Option (List Piece × Config) :=
  match stepState (c.stack.headD State.root) c.pw c.input with
  | some o =>
      some (o.pieces,
        ⟨pushTo o.push c.stack, nextPw c.pw (joinPieces o.pieces), o.rest⟩)
  | none => none

/-- The scan loop, fueled; `tokenize` supplies fuel `input.length`, which is
enough because every iteration consumes at least one character. -/
def scanAux : Nat → Config → List Piece
  | 0, _ => []
  | n + 1, c =>
      match step c with
      | some (ps, c') => ps ++ scanAux n c'
      | none => []

/-- The initial configuration: the stack holds the start state alone, the
cursor is at offset 0 (no previous character). -/
def initConfig (st : State) (s : List Char) : Config := ⟨[st], false, s⟩

/-- Tokenization starting from an arbitrary state (the scanner restricted to
that state's sub-grammar). -/
def tokenizeIn (st : State) (s : List Char) : List Piece :=
  scanAux s.length (initConfig st s)

/-- `get_tokens_unprocessed`: tokenize from the `root` state. -/
def tokenize (s : List Char) : List Piece := tokenizeIn State.root s

/-- The trace of configurations visited by a fueled run (the first element is
the start configuration). -/
def configs : Nat → Config → List Config
  | 0, c => [c]
  | n + 1, c =>
      c :: (match step c with
            | some (_, c') => configs n c'
            | none => [])

/-- A rule is sound when an accepted match emits texts that concatenate to the
consumed (nonempty) span. -/
def RuleSound (r : Rule) : Prop :=
  ∀ pw s o, r pw s = some o →
    joinPieces o.pieces ++ o.rest = s ∧ joinPieces o.pieces ≠ []

/-- The stack relation between consecutive configurations of a run: the old
stack is a suffix of the new one (only pushes), the depth never decreases, and
from the `string`/`heredoc` states the stack does not change at all. -/
def stackP (a b : Config) : Prop :=
  a.stack <:+ b.stack ∧ a.stack.length ≤ b.stack.length ∧
    ((a.stack.headD State.root = State.common__1 ∨
      a.stack.headD State.root = State.common__2) → b.stack = a.stack)

/-- The sample input `option::run { }` of the priority-ordering property. -/
def exOptionRun : List Char :=
  ['o', 'p', 't', 'i', 'o', 'n', ':', ':', 'r', 'u', 'n', ' ', '{', ' ', '}']

/-- The sample input `fs { option fs { } }` of the stack-only-grows property. -/
def exNestedBlocks : List Char :=
  ['f', 's', ' ', '{', ' ', 'o', 'p', 't', 'i', 'o', 'n', ' ', 'f', 's', ' ',
   '{', ' ', '}', ' ', '}']

/-! ## Basic lemmas about the combinators -/

theorem stripWord_append (w : List Char) :
    ∀ s r, stripWord w s = some r → w ++ r = s := by
  induction w with
  | nil =>
      intro s r h
      simp only [stripWord, Option.some.injEq] at h
      simp [h]
  | cons c w ih =>
      intro s r h
      cases s with
      | nil => simp [stripWord] at h
      | cons d t =>
          simp only [stripWord] at h
          split at h
          · next hc =>
              have hw := ih t r h
              have : c = d := by exact beq_iff_eq.mp hc
              subst this
              simp [hw]
          · exact absurd h (by simp)

theorem length_lt_of_append {con rest s : List Char}
    (h : con ++ rest = s) (hc : con ≠ []) : rest.length < s.length := by
  subst h
  simp only [List.length_append]
  have : 0 < con.length := List.length_pos.mpr hc
  omega

theorem kwAfter_spec {w s : List Char} {p : List Char × List Char}
    (h : kwAfter w s = some p) : p.1 = w ∧ p.1 ++ p.2 = s := by
  unfold kwAfter at h
  split at h
  · next r hs =>
      split at h
      · cases h
      · injection h with h'
        subst h'
        exact ⟨rfl, stripWord_append w s r hs⟩
  · cases h

theorem firstKw_spec :
    ∀ (ws : List (List Char)) (s : List Char) (p : List Char × List Char),
      firstKw ws s = some p → p.1 ∈ ws ∧ p.1 ++ p.2 = s := by
  intro ws
  induction ws with
  | nil => intro s p h; simp [firstKw] at h
  | cons w ws ih =>
      intro s p h
      unfold firstKw at h
      cases hk : kwAfter w s with
      | some q =>
          rw [hk] at h
          simp only [orE, Option.some.injEq] at h
          subst h
          obtain ⟨h1, h2⟩ := kwAfter_spec hk
          exact ⟨by rw [h1]; exact List.mem_cons_self w ws, h2⟩
      | none =>
          rw [hk] at h
          simp only [orE] at h
          obtain ⟨h1, h2⟩ := ih s p h
          exact ⟨List.mem_cons_of_mem w h1, h2⟩

theorem matchComment_spec {s : List Char} {p : List Char × List Char}
    (h : matchComment s = some p) : p.1 ++ p.2 = s ∧ p.1 ≠ [] := by
  rw [matchComment.eq_def] at h
  split at h
  · next rest =>
      injection h with h'
      subst h'
      refine ⟨?_, by simp⟩
      simp [List.takeWhile_append_dropWhile]
  · cases h

theorem matchIdent_spec {pw : Bool} {s : List Char} {p : List Char × List Char}
    (h : matchIdent pw s = some p) : p.1 ++ p.2 = s ∧ p.1 ≠ [] := by
  unfold matchIdent at h
  split at h
  · cases h
  · split at h
    · next c rest =>
        split at h
        · split at h
          · cases h
          · injection h with h'
            subst h'
            refine ⟨?_, by simp⟩
            simp [List.takeWhile_append_dropWhile]
        · cases h
    · cases h

theorem matchNumber_spec {pw : Bool} {s : List Char} {p : List Char × List Char}
    (h : matchNumber pw s = some p) : p.1 ++ p.2 = s ∧ p.1 ≠ [] := by
  unfold matchNumber at h
  split at h
  · cases h
  · rw [orE.eq_def] at h
    split at h
    · next a ha =>
        injection h with h'
        subst h'
        split at ha
        · next b rest =>
            split at ha
            · split at ha
              · cases ha
              · split at ha
                · cases ha
                · injection ha with ha'
                  subst ha'
                  refine ⟨?_, by simp⟩
                  simp [List.takeWhile_append_dropWhile]
            · cases ha
        · cases ha
    · next ha =>
        rw [orE.eq_def] at h
        split at h
        · next a hb =>
            injection h with h'
            subst h'
            split at hb
            · next rest =>
                split at hb
                · cases hb
                · injection hb with hb'
                  subst hb'
                  exact ⟨rfl, by simp⟩
            · next c rest =>
                split at hb
                · split at hb
                  · cases hb
                  · injection hb with hb'
                    subst hb'
                    refine ⟨?_, by simp⟩
                    simp [List.takeWhile_append_dropWhile]
                · cases hb
            · cases hb
        · next hb =>
            obtain ⟨h1, h2⟩ := firstKw_spec _ _ _ h
            refine ⟨h2, ?_⟩
            intro hnil
            rw [hnil] at h1
            simp at h1

theorem heredocTag_spec {sig r2 : List Char} {p : List Char × List Char × List Char}
    (h : heredocTag sig r2 = some p) :
    p.1 = sig ∧ p.2.1 ++ p.2.2 = r2 ∧ p.2.1 ≠ [] := by
  unfold heredocTag at h
  split at h
  · cases h
  · next hne =>
      injection h with h'
      subst h'
      refine ⟨rfl, by simp [List.takeWhile_append_dropWhile], ?_⟩
      simpa [List.isEmpty_iff] using hne

theorem matchHeredoc_spec {s : List Char} {p : List Char × List Char × List Char}
    (h : matchHeredoc s = some p) : p.1 ++ p.2.1 ++ p.2.2 = s ∧ p.1 ≠ [] := by
  rw [matchHeredoc.eq_def] at h
  split at h
  · next r =>
      split at h
      · next c r' =>
          split at h
          · next hc =>
              obtain ⟨h1, h2, _⟩ := heredocTag_spec h
              refine ⟨?_, by rw [h1]; simp⟩
              rw [h1]
              simp only [List.append_assoc, List.cons_append, List.nil_append]
              rw [h2]
          · obtain ⟨h1, h2, _⟩ := heredocTag_spec h
            refine ⟨?_, by rw [h1]; simp⟩
            rw [h1]
            simp only [List.append_assoc, List.cons_append, List.nil_append]
            rw [h2]
      · obtain ⟨h1, h2, h3⟩ := heredocTag_spec h
        simp only [List.append_eq_nil] at h2
        exact absurd h2.1 h3
  · cases h

theorem matchTypeKw_spec {pw : Bool} {s : List Char} {p : List Char × List Char}
    (h : matchTypeKw pw s = some p) : p.1 ++ p.2 = s ∧ p.1 ≠ [] := by
  unfold matchTypeKw at h
  split at h
  · cases h
  · rw [orE.eq_def] at h
    split at h
    · next a ha =>
        injection h with h'
        subst h'
        obtain ⟨h1, h2⟩ := firstKw_spec _ _ _ ha
        refine ⟨h2, ?_⟩
        intro hnil
        rw [hnil] at h1
        exact absurd h1 (by decide)
    · rw [orE.eq_def] at h
      split at h
      · next a ha =>
          injection h with h'
          subst h'
          split at ha
          · next r hs =>
              split at ha
              · cases ha
              · split at ha
                · cases ha
                · injection ha with ha'
                  subst ha'
                  exact ⟨stripWord_append _ _ _ hs, by simp⟩
          · cases ha
      · next ha =>
          split at h
          · next r hs =>
              split at h
              · next q hq =>
                  injection h with h'
                  subst h'
                  obtain ⟨h1, h2⟩ := firstKw_spec _ _ _ hq
                  have hr := stripWord_append _ _ _ hs
                  refine ⟨?_, by simp⟩
                  rw [List.append_assoc, h2, hr]
              · cases h
          · cases h

theorem matchControlKw_spec {pw : Bool} {s : List Char} {p : List Char × List Char}
    (h : matchControlKw pw s = some p) : p.1 ++ p.2 = s ∧ p.1 ≠ [] := by
  unfold matchControlKw at h
  split at h
  · cases h
  · obtain ⟨h1, h2⟩ := firstKw_spec _ _ _ h
    refine ⟨h2, ?_⟩
    intro hnil
    rw [hnil] at h1
    exact absurd h1 (by decide)

theorem matchWsAsParen_spec {s : List Char} {p : List Char × List Char}
    (h : matchWsAsParen s = some p) : p.1 ++ '(' :: p.2 = s ∧ p.1 ≠ [] := by
  unfold matchWsAsParen at h
  split at h
  · cases h
  · split at h
    · next r hs =>
        split at h
        · cases h
        · split at h
          · next rest hdp =>
              injection h with h'
              subst h'
              refine ⟨?_, by simp⟩
              have e1 := List.takeWhile_append_dropWhile isWs s
              have e2 : ['a', 's'] ++ r = s.dropWhile isWs := stripWord_append _ _ _ hs
              have e3 := List.takeWhile_append_dropWhile isWs r
              simp only [List.append_assoc, List.cons_append, List.nil_append]
              simp only [List.cons_append, List.nil_append] at e2
              rw [← hdp, e3, e2, e1]
          · cases h
    · cases h

theorem matchWsWithWs_spec {s : List Char} {p : List Char × List Char}
    (h : matchWsWithWs s = some p) : p.1 ++ p.2 = s ∧ p.1 ≠ [] := by
  unfold matchWsWithWs at h
  split at h
  · cases h
  · split at h
    · next r hs =>
        split at h
        · cases h
        · injection h with h'
          subst h'
          refine ⟨?_, by simp⟩
          have e1 := List.takeWhile_append_dropWhile isWs s
          have e2 : "with".toList ++ r = s.dropWhile isWs := stripWord_append _ _ _ hs
          have e3 := List.takeWhile_append_dropWhile isWs r
          simp only [List.append_assoc]
          rw [e3, e2, e1]
    · cases h

theorem matchAsIdent_spec {s : List Char} {p : List Char × List Char × List Char}
    (h : matchAsIdent s = some p) :
    ['a', 's'] ++ p.1 ++ p.2.1 ++ p.2.2 = s := by
  unfold matchAsIdent at h
  split at h
  · next r hs =>
      split at h
      · cases h
      · split at h
        · next q hq =>
            injection h with h'
            subst h'
            obtain ⟨h1, _⟩ := matchIdent_spec hq
            have e2 : ['a', 's'] ++ r = s := stripWord_append _ _ _ hs
            have e3 := List.takeWhile_append_dropWhile isWs r
            simp only [List.append_assoc, List.cons_append, List.nil_append]
            simp only [List.append_assoc, List.cons_append, List.nil_append] at e2
            rw [h1, e3]
            exact e2
        · cases h
  · cases h

theorem matchAsParen_spec {s : List Char} {p : List Char × List Char}
    (h : matchAsParen s = some p) :
    ['a', 's'] ++ p.1 ++ '(' :: p.2 = s := by
  unfold matchAsParen at h
  split at h
  · next r hs =>
      split at h
      · cases h
      · split at h
        · next rest hdp =>
            injection h with h'
            subst h'
            have e2 : ['a', 's'] ++ r = s := stripWord_append _ _ _ hs
            have e3 := List.takeWhile_append_dropWhile isWs r
            simp only [List.append_assoc, List.cons_append, List.nil_append]
            simp only [List.append_assoc, List.cons_append, List.nil_append] at e2
            rw [← hdp, e3]
            exact e2
        · cases h
  · cases h

theorem matchTypeBlock_spec {pw : Bool} {s : List Char}
    {p : List Char × List Char × List Char}
    (h : matchTypeBlock pw s = some p) :
    p.1 ++ p.2.1 ++ '{' :: p.2.2 = s ∧ p.1 ≠ [] := by
  unfold matchTypeBlock at h
  split at h
  · next ty r hty =>
      split at h
      · cases h
      · split at h
        · next rest hdp =>
            injection h with h'
            subst h'
            obtain ⟨h1, h2⟩ := matchTypeKw_spec hty
            refine ⟨?_, h2⟩
            have e3 := List.takeWhile_append_dropWhile isWs r
            simp only [List.append_assoc]
            rw [← hdp, e3]
            exact h1
        · cases h
  · cases h

theorem matchFieldVar_spec {pw : Bool} {s : List Char} {p : List Char × List Char}
    (h : matchFieldVar pw s = some p) : p.1 ++ p.2 = s ∧ p.1 ≠ [] := by
  unfold matchFieldVar at h
  split at h
  · cases h
  · exact matchIdent_spec h

theorem matchBindingPair_spec {pw : Bool} {s : List Char}
    {p : List Char × List Char × List Char × List Char}
    (h : matchBindingPair pw s = some p) :
    p.1 ++ p.2.1 ++ p.2.2.1 ++ p.2.2.2 = s ∧ p.1 ≠ [] := by
  unfold matchBindingPair at h
  split at h
  · next n1 r h1 =>
      split at h
      · cases h
      · split at h
        · next q hq =>
            injection h with h'
            subst h'
            obtain ⟨e1, e4⟩ := matchIdent_spec h1
            obtain ⟨e2, _⟩ := matchIdent_spec hq
            refine ⟨?_, e4⟩
            have e3 := List.takeWhile_append_dropWhile isWs r
            simp only [List.append_assoc]
            rw [e2, e3]
            exact e1
        · cases h
  · cases h

/-! ## Soundness and totality of one scan-loop iteration -/

theorem joinPieces_nil : joinPieces [] = [] := rfl

theorem joinPieces_cons (k : TokenKind) (t : List Char) (ps : List Piece) :
    joinPieces ((k, t) :: ps) = t ++ joinPieces ps := by
  simp [joinPieces]

theorem commentRule_sound : RuleSound commentRule := by
  intro pw s o h
  unfold commentRule at h
  cases hm : matchComment s with
  | none => rw [hm] at h; cases h
  | some p =>
      rw [hm, Option.map_some'] at h
      injection h with h'
      subst h'
      obtain ⟨h1, h2⟩ := matchComment_spec hm
      simpa [joinPieces] using ⟨h1, h2⟩

theorem numberRule_sound : RuleSound numberRule := by
  intro pw s o h
  unfold numberRule at h
  cases hm : matchNumber pw s with
  | none => rw [hm] at h; cases h
  | some p =>
      rw [hm, Option.map_some'] at h
      injection h with h'
      subst h'
      obtain ⟨h1, h2⟩ := matchNumber_spec hm
      simpa [joinPieces] using ⟨h1, h2⟩

theorem quoteRule_sound : RuleSound quoteRule := by
  intro pw s o h
  simp only [quoteRule] at h
  split at h
  · injection h with h'
    subst h'
    simp [joinPieces]
  · cases h

theorem heredocRule_sound : RuleSound heredocRule := by
  intro pw s o h
  unfold heredocRule at h
  cases hm : matchHeredoc s with
  | none => rw [hm] at h; cases h
  | some p =>
      rw [hm, Option.map_some'] at h
      injection h with h'
      subst h'
      obtain ⟨h1, h2⟩ := matchHeredoc_spec hm
      constructor
      · simpa [joinPieces, List.append_assoc] using h1
      · simp [joinPieces]
        intro hx
        exact absurd hx h2

theorem typeKwRule_sound : RuleSound typeKwRule := by
  intro pw s o h
  unfold typeKwRule at h
  cases hm : matchTypeKw pw s with
  | none => rw [hm] at h; cases h
  | some p =>
      rw [hm, Option.map_some'] at h
      injection h with h'
      subst h'
      obtain ⟨h1, h2⟩ := matchTypeKw_spec hm
      simpa [joinPieces] using ⟨h1, h2⟩

theorem controlKwRule_sound : RuleSound controlKwRule := by
  intro pw s o h
  unfold controlKwRule at h
  cases hm : matchControlKw pw s with
  | none => rw [hm] at h; cases h
  | some p =>
      rw [hm, Option.map_some'] at h
      injection h with h'
      subst h'
      obtain ⟨h1, h2⟩ := matchControlKw_spec hm
      simpa [joinPieces] using ⟨h1, h2⟩

theorem identParenRule_sound : RuleSound identParenRule := by
  intro pw s o h
  unfold identParenRule at h
  split at h
  · next name r hm =>
      split at h
      · next rest =>
          injection h with h'
          subst h'
          obtain ⟨h1, h2⟩ := matchIdent_spec hm
          constructor
          · simp only [joinPieces_cons, joinPieces_nil, List.append_nil,
              List.append_assoc, List.cons_append, List.nil_append]
            exact h1
          · simp [joinPieces]
      · cases h
  · cases h

theorem parenCloseRule_sound : RuleSound parenCloseRule := by
  intro pw s o h
  simp only [parenCloseRule] at h
  split at h
  · injection h with h'
    subst h'
    simp [joinPieces]
  · cases h

theorem wsAsParenRule_sound : RuleSound wsAsParenRule := by
  intro pw s o h
  unfold wsAsParenRule at h
  cases hm : matchWsAsParen s with
  | none => rw [hm] at h; cases h
  | some p =>
      rw [hm, Option.map_some'] at h
      injection h with h'
      subst h'
      obtain ⟨h1, h2⟩ := matchWsAsParen_spec hm
      constructor
      · simpa [joinPieces, List.append_assoc] using h1
      · simp [joinPieces]

theorem braceOpenRule_sound : RuleSound braceOpenRule := by
  intro pw s o h
  simp only [braceOpenRule] at h
  split at h
  · injection h with h'
    subst h'
    simp [joinPieces]
  · cases h

theorem braceCloseRule_sound : RuleSound braceCloseRule := by
  intro pw s o h
  simp only [braceCloseRule] at h
  split at h
  · injection h with h'
    subst h'
    simp [joinPieces]
  · cases h

theorem identVarRule_sound : RuleSound identVarRule := by
  intro pw s o h
  unfold identVarRule at h
  cases hm : matchIdent pw s with
  | none => rw [hm] at h; cases h
  | some p =>
      rw [hm, Option.map_some'] at h
      injection h with h'
      subst h'
      obtain ⟨h1, h2⟩ := matchIdent_spec hm
      simpa [joinPieces] using ⟨h1, h2⟩

theorem newlineRule_sound : RuleSound newlineRule := by
  intro pw s o h
  simp only [newlineRule] at h
  split at h
  · split at h
    · injection h with h'
      subst h'
      simp [joinPieces]
    · split at h
      · injection h with h'
        subst h'
        simp [joinPieces]
      · cases h
  · cases h

theorem dotRule_sound : RuleSound dotRule := by
  intro pw s o h
  simp only [dotRule] at h
  split at h
  · split at h
    · cases h
    · injection h with h'
      subst h'
      simp [joinPieces]
  · cases h

theorem bindingPairRule_sound : RuleSound bindingPairRule := by
  intro pw s o h
  unfold bindingPairRule at h
  cases hm : matchBindingPair pw s with
  | none => rw [hm] at h; cases h
  | some p =>
      rw [hm, Option.map_some'] at h
      injection h with h'
      subst h'
      obtain ⟨h1, h2⟩ := matchBindingPair_spec hm
      constructor
      · simpa [joinPieces, List.append_assoc] using h1
      · simp [joinPieces]
        intro hx
        exact absurd hx h2

theorem wsWithWsRule_sound : RuleSound wsWithWsRule := by
  intro pw s o h
  unfold wsWithWsRule at h
  cases hm : matchWsWithWs s with
  | none => rw [hm] at h; cases h
  | some p =>
      rw [hm, Option.map_some'] at h
      injection h with h'
      subst h'
      obtain ⟨h1, h2⟩ := matchWsWithWs_spec hm
      simpa [joinPieces] using ⟨h1, h2⟩

theorem asIdentRule_sound : RuleSound asIdentRule := by
  intro pw s o h
  unfold asIdentRule at h
  cases hm : matchAsIdent s with
  | none => rw [hm] at h; cases h
  | some p =>
      rw [hm, Option.map_some'] at h
      injection h with h'
      subst h'
      have h1 := matchAsIdent_spec hm
      constructor
      · simpa [joinPieces, List.append_assoc] using h1
      · simp [joinPieces]

theorem asParenRule_sound : RuleSound asParenRule := by
  intro pw s o h
  unfold asParenRule at h
  cases hm : matchAsParen s with
  | none => rw [hm] at h; cases h
  | some p =>
      rw [hm, Option.map_some'] at h
      injection h with h'
      subst h'
      have h1 := matchAsParen_spec hm
      constructor
      · simpa [joinPieces, List.append_assoc] using h1
      · simp [joinPieces]

theorem typeBlockRule_sound : RuleSound typeBlockRule := by
  intro pw s o h
  unfold typeBlockRule at h
  cases hm : matchTypeBlock pw s with
  | none => rw [hm] at h; cases h
  | some p =>
      rw [hm, Option.map_some'] at h
      injection h with h'
      subst h'
      obtain ⟨h1, h2⟩ := matchTypeBlock_spec hm
      constructor
      · simpa [joinPieces, List.append_assoc] using h1
      · simp [joinPieces]

theorem fieldVarRule_sound : RuleSound fieldVarRule := by
  intro pw s o h
  unfold fieldVarRule at h
  cases hm : matchFieldVar pw s with
  | none => rw [hm] at h; cases h
  | some p =>
      rw [hm, Option.map_some'] at h
      injection h with h'
      subst h'
      obtain ⟨h1, h2⟩ := matchFieldVar_spec hm
      simpa [joinPieces] using ⟨h1, h2⟩

theorem identBuiltinRule_sound : RuleSound identBuiltinRule := by
  intro pw s o h
  unfold identBuiltinRule at h
  cases hm : matchIdent pw s with
  | none => rw [hm] at h; cases h
  | some p =>
      rw [hm, Option.map_some'] at h
      injection h with h'
      subst h'
      obtain ⟨h1, h2⟩ := matchIdent_spec hm
      simpa [joinPieces] using ⟨h1, h2⟩

theorem variadicRule_sound : RuleSound variadicRule := by
  intro pw s o h
  unfold variadicRule at h
  cases hm : stripWord ("variadic".toList) s with
  | none => rw [hm] at h; cases h
  | some r =>
      rw [hm, Option.map_some'] at h
      injection h with h'
      subst h'
      have h1 := stripWord_append _ _ _ hm
      simpa [joinPieces] using h1

theorem table_sound : ∀ (st : State) (r : Rule), r ∈ st.table → RuleSound r := by
  intro st r hr
  cases st <;> simp only [State.table, List.mem_cons, List.not_mem_nil, or_false] at hr <;>
    rcases hr with rfl | rfl | rfl | rfl | rfl | rfl | rfl | rfl | rfl | rfl | rfl | rfl | rfl | rfl | rfl <;>
    first
      | exact commentRule_sound
      | exact numberRule_sound
      | exact quoteRule_sound
      | exact heredocRule_sound
      | exact typeKwRule_sound
      | exact controlKwRule_sound
      | exact identParenRule_sound
      | exact parenCloseRule_sound
      | exact wsAsParenRule_sound
      | exact braceOpenRule_sound
      | exact braceCloseRule_sound
      | exact identVarRule_sound
      | exact newlineRule_sound
      | exact dotRule_sound
      | exact bindingPairRule_sound
      | exact wsWithWsRule_sound
      | exact asIdentRule_sound
      | exact asParenRule_sound
      | exact typeBlockRule_sound
      | exact fieldVarRule_sound
      | exact identBuiltinRule_sound
      | exact variadicRule_sound

theorem firstSome_sound :
    ∀ (rs : List Rule), (∀ r ∈ rs, RuleSound r) →
      ∀ pw s o, firstSome rs pw s = some o →
        joinPieces o.pieces ++ o.rest = s ∧ joinPieces o.pieces ≠ [] := by
  intro rs
  induction rs with
  | nil => intro _ pw s o h; simp [firstSome] at h
  | cons r rs ih =>
      intro hs pw s o h
      unfold firstSome at h
      split at h
      · next o' ho =>
          injection h with h'
          subst h'
          exact hs r (List.mem_cons_self r rs) pw s _ ho
      · exact ih (fun r' hr' => hs r' (List.mem_cons_of_mem r hr')) pw s o h

/-- Soundness of one iteration: the emitted texts concatenate to the consumed
nonempty span of the input. -/
theorem stepState_sound {st : State} {pw : Bool} {s : List Char} {o : StepOut}
    (h : stepState st pw s = some o) :
    joinPieces o.pieces ++ o.rest = s ∧ joinPieces o.pieces ≠ [] :=
  firstSome_sound st.table (table_sound st) pw s o h

theorem firstSome_isSome_of_mem {rs : List Rule} {r : Rule} {pw : Bool}
    {s : List Char} (hr : r ∈ rs) (hs : (r pw s).isSome) :
    (firstSome rs pw s).isSome := by
  induction rs with
  | nil => cases hr
  | cons r' rs ih =>
      unfold firstSome
      cases ho : r' pw s with
      | some o => simp
      | none =>
          rcases List.mem_cons.mp hr with rfl | hr'
          · rw [ho] at hs; cases hs
          · exact ih hr'

theorem newlineRule_mem (st : State) : newlineRule ∈ st.table := by
  cases st <;> simp [State.table]

theorem dotRule_mem (st : State) : dotRule ∈ st.table := by
  cases st <;> simp [State.table]

/-- Totality of one iteration: some rule always matches at a nonempty input
(at worst the newline rule or the one-character catch-all). -/
theorem stepState_isSome (st : State) (pw : Bool) {s : List Char}
    (h : s ≠ []) : (stepState st pw s).isSome := by
  cases s with
  | nil => exact absurd rfl h
  | cons c t =>
      by_cases hc : c = '\n'
      · subst hc
        exact firstSome_isSome_of_mem (newlineRule_mem st) (by simp [newlineRule])
      · refine firstSome_isSome_of_mem (dotRule_mem st) ?_
        simp only [dotRule]
        rw [if_neg (by simpa using hc)]
        simp

/-- At end of input no rule matches. -/
theorem stepState_nil (st : State) (pw : Bool) : stepState st pw [] = none := by
  cases st <;> cases pw <;> rfl

/-! ## The scan loop: soundness, progress, termination -/

theorem joinPieces_append (a b : List Piece) :
    joinPieces (a ++ b) = joinPieces a ++ joinPieces b := by
  simp [joinPieces]

theorem step_sound {c : Config} {ps : List Piece} {c' : Config}
    (h : step c = some (ps, c')) :
    joinPieces ps ++ c'.input = c.input ∧ joinPieces ps ≠ [] := by
  unfold step at h
  split at h
  · next o ho =>
      simp only [Option.some.injEq, Prod.mk.injEq] at h
      obtain ⟨rfl, rfl⟩ := h
      exact stepState_sound ho
  · cases h

theorem step_stack {c : Config} {ps : List Piece} {c' : Config}
    (h : step c = some (ps, c')) :
    c.stack <:+ c'.stack ∧ c.stack.length ≤ c'.stack.length := by
  unfold step at h
  split at h
  · next o ho =>
      simp only [Option.some.injEq, Prod.mk.injEq] at h
      obtain ⟨rfl, rfl⟩ := h
      cases hp : o.push with
      | none => simp [pushTo, hp]
      | some st =>
          refine ⟨?_, ?_⟩
          · simp only [pushTo, hp]
            exact List.suffix_cons st c.stack
          · simp [pushTo, hp]
  · cases h

theorem newlineRule_push {pw : Bool} {s : List Char} {o : StepOut}
    (h : newlineRule pw s = some o) : o.push = none := by
  simp only [newlineRule] at h
  split at h
  · split at h
    · injection h with h'; subst h'; rfl
    · split at h
      · injection h with h'; subst h'; rfl
      · cases h
  · cases h

theorem dotRule_push {pw : Bool} {s : List Char} {o : StepOut}
    (h : dotRule pw s = some o) : o.push = none := by
  simp only [dotRule] at h
  split at h
  · split at h
    · cases h
    · injection h with h'; subst h'; rfl
  · cases h

/-- The `string` and `heredoc` states contain only the two catch-all rules,
neither of which pushes a state. -/
theorem stepState_common_push {st : State} {pw : Bool} {s : List Char} {o : StepOut}
    (hst : st = State.common__1 ∨ st = State.common__2)
    (h : stepState st pw s = some o) : o.push = none := by
  have htab : st.table = [newlineRule, dotRule] := by
    rcases hst with rfl | rfl <;> rfl
  unfold stepState at h
  rw [htab] at h
  unfold firstSome at h
  split at h
  · next o' ho =>
      injection h with h'
      subst h'
      exact newlineRule_push ho
  · unfold firstSome at h
    split at h
    · next o' ho =>
        injection h with h'
        subst h'
        exact dotRule_push ho
    · simp [firstSome] at h

theorem step_frozen {c : Config} {ps : List Piece} {c' : Config}
    (htop : c.stack.headD State.root = State.common__1 ∨
            c.stack.headD State.root = State.common__2)
    (h : step c = some (ps, c')) : c'.stack = c.stack := by
  unfold step at h
  split at h
  · next o ho =>
      simp only [Option.some.injEq, Prod.mk.injEq] at h
      obtain ⟨rfl, rfl⟩ := h
      rw [stepState_common_push htop ho]
      rfl
  · cases h

theorem step_eq_none {c : Config} (h : c.input = []) : step c = none := by
  unfold step
  rw [h, stepState_nil]

theorem input_nil_of_step_none {c : Config} (h : step c = none) : c.input = [] := by
  by_contra hne
  have hs := stepState_isSome (c.stack.headD State.root) c.pw hne
  unfold step at h
  split at h
  · cases h
  · next ho => rw [ho] at hs; cases hs

/-- Round-trip invariant of the fueled loop: with enough fuel, the emitted
texts concatenate to the whole remaining input. -/
theorem scanAux_join : ∀ (n : Nat) (c : Config), c.input.length ≤ n →
    joinPieces (scanAux n c) = c.input := by
  intro n
  induction n with
  | zero =>
      intro c hc
      have hnil : c.input = [] := List.length_eq_zero.mp (Nat.le_zero.mp hc)
      rw [hnil]
      rfl
  | succ n ih =>
      intro c hc
      cases h : step c with
      | none =>
          have hnil := input_nil_of_step_none h
          simp only [scanAux, h]
          rw [hnil]
          rfl
      | some pc =>
          obtain ⟨ps, c'⟩ := pc
          simp only [scanAux, h]
          have hs := step_sound h
          have hlt : c'.input.length < c.input.length :=
            length_lt_of_append hs.1 hs.2
          rw [joinPieces_append, ih c' (by omega)]
          exact hs.1

/-- The fuel supplied by `tokenize` is enough: any two sufficient fuels give
the same result (the loop genuinely reaches end of input). -/
theorem scanAux_fuel : ∀ (n m : Nat) (c : Config), c.input.length ≤ n →
    c.input.length ≤ m → scanAux n c = scanAux m c := by
  intro n
  induction n with
  | zero =>
      intro m c h1 h2
      have hnil : c.input = [] := List.length_eq_zero.mp (Nat.le_zero.mp h1)
      cases m with
      | zero => rfl
      | succ m => simp only [scanAux, step_eq_none hnil]
  | succ n ih =>
      intro m c h1 h2
      cases hstep : step c with
      | none =>
          cases m with
          | zero =>
              simp only [scanAux, hstep]
          | succ m => simp only [scanAux, hstep]
      | some pc =>
          obtain ⟨ps, c'⟩ := pc
          have hne : c.input ≠ [] := by
            intro hx
            rw [step_eq_none hx] at hstep
            cases hstep
          have hpos : 0 < c.input.length := List.length_pos.mpr hne
          cases m with
          | zero => omega
          | succ m =>
              simp only [scanAux, hstep]
              have hs := step_sound hstep
              have hlt : c'.input.length < c.input.length :=
                length_lt_of_append hs.1 hs.2
              congr 1
              exact ih m c' (by omega) (by omega)

/-! ## The configuration trace: stack behaviour -/

theorem step_stackP {c : Config} {ps : List Piece} {c' : Config}
    (h : step c = some (ps, c')) : stackP c c' :=
  ⟨(step_stack h).1, (step_stack h).2, fun htop => step_frozen htop h⟩

theorem configs_head (n : Nat) (c : Config) : (configs n c).head? = some c := by
  cases n <;> rfl

theorem configs_chain : ∀ (n : Nat) (c : Config),
    List.Chain' stackP (configs n c) := by
  intro n
  induction n with
  | zero => intro c; exact List.chain'_singleton c
  | succ n ih =>
      intro c
      cases h : step c with
      | none =>
          simp only [configs, h]
          exact List.chain'_singleton c
      | some pc =>
          obtain ⟨ps, c'⟩ := pc
          simp only [configs, h]
          rw [List.chain'_cons']
          refine ⟨?_, ih c'⟩
          intro y hy
          rw [configs_head, Option.mem_def] at hy
          injection hy with hy'
          subst hy'
          exact step_stackP h

theorem configs_bottom : ∀ (n : Nat) (c : Config), c.stack ≠ [] →
    c.stack.getLast? = some State.root →
    ∀ x ∈ configs n c, x.stack ≠ [] ∧ x.stack.getLast? = some State.root := by
  intro n
  induction n with
  | zero =>
      intro c h1 h2 x hx
      simp only [configs, List.mem_singleton] at hx
      subst hx
      exact ⟨h1, h2⟩
  | succ n ih =>
      intro c h1 h2 x hx
      cases h : step c with
      | none =>
          simp only [configs, h, List.mem_singleton] at hx
          subst hx
          exact ⟨h1, h2⟩
      | some pc =>
          obtain ⟨ps, c'⟩ := pc
          simp only [configs, h, List.mem_cons] at hx
          rcases hx with rfl | hx'
          · exact ⟨h1, h2⟩
          · obtain ⟨t, ht⟩ := (step_stack h).1
            have hne : c'.stack ≠ [] := by
              rw [← ht]
              simp [h1]
            have hlast : c'.stack.getLast? = some State.root := by
              rw [← ht, List.getLast?_append_of_ne_nil t h1]
              exact h2
            exact ih c' hne hlast x hx'

theorem configs_frozen : ∀ (n : Nat) (c : Config),
    (c.stack.headD State.root = State.common__1 ∨
     c.stack.headD State.root = State.common__2) →
    ∀ x ∈ configs n c, x.stack = c.stack := by
  intro n
  induction n with
  | zero =>
      intro c htop x hx
      simp only [configs, List.mem_singleton] at hx
      subst hx
      rfl
  | succ n ih =>
      intro c htop x hx
      cases h : step c with
      | none =>
          simp only [configs, h, List.mem_singleton] at hx
          subst hx
          rfl
      | some pc =>
          obtain ⟨ps, c'⟩ := pc
          simp only [configs, h, List.mem_cons] at hx
          rcases hx with rfl | hx'
          · rfl
          · have heq := step_frozen htop h
            have htop' : c'.stack.headD State.root = State.common__1 ∨
                c'.stack.headD State.root = State.common__2 := by
              rw [heq]
              exact htop
            rw [ih c' htop' x hx', heq]

/-! ## Behaviour of the `heredoc`/`string` states -/

theorem scanAux_step_some {c : Config} {ps : List Piece} {c' : Config}
    (h : step c = some (ps, c')) (n : Nat) :
    scanAux (n + 1) c = ps ++ scanAux n c' := by
  simp only [scanAux, h]

/-- In the `heredoc` state every character (newline or not) is consumed as a
single one-character raw token. -/
theorem stepState_common2 (pw : Bool) (c : Char) (t : List Char) :
    stepState State.common__2 pw (c :: t) =
      some ⟨[(TokenKind.Str, [c])], none, t⟩ := by
  by_cases h1 : c = '\n'
  · subst h1; rfl
  · by_cases h2 : c = '\r'
    · subst h2; rfl
    · have e1 : (c == '\n') = false := by simpa using h1
      have e2 : (c == '\r') = false := by simpa using h2
      simp [stepState, State.table, firstSome, newlineRule, dotRule, e1, e2]

/-- Once in the `heredoc` state, the rest of the input is emitted as
one-character raw tokens, one per character, until end of input. -/
theorem scanAux_common2 : ∀ (n : Nat) (s : List Char) (stack : List State)
    (pw : Bool), s.length ≤ n →
    scanAux n ⟨State.common__2 :: stack, pw, s⟩ =
      s.map (fun c => (TokenKind.Str, [c])) := by
  intro n
  induction n with
  | zero =>
      intro s stack pw h
      have hnil : s = [] := List.length_eq_zero.mp (Nat.le_zero.mp h)
      subst hnil
      rfl
  | succ n ih =>
      intro s stack pw h
      cases s with
      | nil =>
          have h0 : step ⟨State.common__2 :: stack, pw, ([] : List Char)⟩ = none :=
            step_eq_none rfl
          simp [scanAux, h0]
      | cons c t =>
          have hstep : step ⟨State.common__2 :: stack, pw, c :: t⟩ =
              some ([(TokenKind.Str, [c])],
                ⟨State.common__2 :: stack,
                 nextPw pw (joinPieces [(TokenKind.Str, [c])]), t⟩) := by
            unfold step
            rw [show (⟨State.common__2 :: stack, pw, c :: t⟩ : Config).stack.headD
                  State.root = State.common__2 from rfl]
            rw [stepState_common2]
            rfl
          rw [scanAux_step_some hstep n, ih t stack _ (by simpa using h)]
          rfl

/-! ## The claims -/

/-- Claim C1: for every input string, concatenating the `text` of every emitted
token in emission order reproduces the input string exactly — no character is
dropped or duplicated by tokenization. -/
theorem c1_round_trip (s : List Char) : joinPieces (tokenize s) = s :=
  scanAux_join s.length (initConfig State.root s) (Nat.le_refl _)

/-- Claim C2: for every input (including the empty input), tokenization
terminates with a finite token sequence: every scan-loop iteration on a
nonempty input succeeds (some rule matches), emits at least one token, and
strictly advances the cursor; consequently fuel `input.length` is enough, and
any two sufficient fuels give the same (finished) scan. -/
theorem c2_termination_progress :
    (∀ c : Config, c.input ≠ [] →
      ∃ ps c', step c = some (ps, c') ∧ ps ≠ [] ∧
        c'.input.length < c.input.length) ∧
    (∀ (n m : Nat) (c : Config), c.input.length ≤ n → c.input.length ≤ m →
      scanAux n c = scanAux m c) := by
  constructor
  · intro c hne
    have hs := stepState_isSome (c.stack.headD State.root) c.pw hne
    have hstep : (step c).isSome := by
      unfold step
      cases ho : stepState (c.stack.headD State.root) c.pw c.input with
      | none => rw [ho] at hs; cases hs
      | some o => simp
    obtain ⟨pc, hpc⟩ := Option.isSome_iff_exists.mp hstep
    obtain ⟨ps, c'⟩ := pc
    have h2 := step_sound hpc
    refine ⟨ps, c', hpc, ?_, length_lt_of_append h2.1 h2.2⟩
    intro hx
    rw [hx] at h2
    exact h2.2 rfl
  · exact scanAux_fuel

/-- Claim C2 witness: the progress and fuel-stability facts at the concrete
input `a`. -/
theorem c2_termination_progress_witness :
    (∃ ps c', step (initConfig State.root ['a']) = some (ps, c') ∧ ps ≠ [] ∧
      c'.input.length < (initConfig State.root ['a']).input.length) ∧
    scanAux 3 (initConfig State.root ['a']) =
      scanAux 1 (initConfig State.root ['a']) :=
  ⟨c2_termination_progress.1 (initConfig State.root ['a']) (by decide),
   c2_termination_progress.2 3 1 (initConfig State.root ['a'])
     (by decide) (by decide)⟩

/-- Claim C3: over a tokenization run the state stack is mutated only by
pushes: along the whole configuration trace, each stack is a suffix of the
next (never popped), depth is monotonically non-decreasing, every reachable
stack is nonempty with `root` at the bottom, and from any configuration whose
active state is `string` (`common__1`) or `heredoc` (`common__2`) the stack
never changes again before end of input. -/
theorem c3_stack_only_grows (s : List Char) :
    List.Chain' stackP (configs s.length (initConfig State.root s)) ∧
    (∀ x ∈ configs s.length (initConfig State.root s),
      x.stack ≠ [] ∧ x.stack.getLast? = some State.root) ∧
    ∀ (n : Nat) (c : Config),
      (c.stack.headD State.root = State.common__1 ∨
       c.stack.headD State.root = State.common__2) →
      ∀ x ∈ configs n c, x.stack = c.stack :=
  ⟨configs_chain s.length (initConfig State.root s),
   configs_bottom s.length (initConfig State.root s) (by simp [initConfig]) rfl,
   configs_frozen⟩

/-- Claim C3 witness: the bottom-of-stack fact applied to the start
configuration of the run on input `a`. -/
theorem c3_stack_only_grows_witness :
    (initConfig State.root ['a']).stack ≠ [] ∧
    (initConfig State.root ['a']).stack.getLast? = some State.root :=
  (c3_stack_only_grows ['a']).2.1 (initConfig State.root ['a']) (by decide)

/-- Claim C4 counterexample: the newline fallback does NOT merge a run of
newline characters into one token — the rule `(\n|\r|\r\n)` consumes exactly
one character per match (the `\r\n` alternative is dead), so `"\n\n"` yields
two raw tokens and `"\r\n"` yields two raw tokens, not one. -/
theorem c4_counterexample :
    tokenize ['\n', '\n'] =
      [(TokenKind.Str, ['\n']), (TokenKind.Str, ['\n'])] ∧
    tokenize ['\n', '\n'] ≠ [(TokenKind.Str, ['\n', '\n'])] ∧
    tokenize ['\r', '\n'] =
      [(TokenKind.Str, ['\r']), (TokenKind.Str, ['\n'])] := by
  refine ⟨by decide, by decide, by decide⟩

/-- Claim C4 (amended): in every state, when no classifying rule matches at
the cursor the fallback consumes exactly one character as a one-character raw
token; a newline character (`\n` or `\r`) is likewise consumed as a single
one-character raw token per match — never as a merged multi-character run. -/
theorem c4_fallback_single_char (st : State) (pw : Bool) (s : List Char) :
    stepState st pw ('\n' :: s) =
      some ⟨[(TokenKind.Str, ['\n'])], none, s⟩ ∧
    stepState st pw ('\r' :: s) =
      some ⟨[(TokenKind.Str, ['\r'])], none, s⟩ ∧
    stepState st pw ('!' :: s) =
      some ⟨[(TokenKind.Str, ['!'])], none, s⟩ := by
  cases st <;> cases pw <;> exact ⟨rfl, rfl, rfl⟩

/-- Claim C5 counterexample: inside a block, `}` is NOT emitted as an
error-class token — the `block` state has no `}` rule, so each `}` of
`fs { option fs { } }` falls to the one-character fallback and is emitted as a
raw token. -/
theorem c5_counterexample :
    (TokenKind.Str, ['}']) ∈ tokenize exNestedBlocks ∧
    (TokenKind.GenericError, ['}']) ∉ tokenize exNestedBlocks ∧
    tokenizeIn State.block ['}'] = [(TokenKind.Str, ['}'])] := by
  refine ⟨by decide, by decide, by decide⟩

/-- Claim C5 (amended): only the `root` state tags `}` and stray `)` as
error-class tokens; in every other state (`block`, `params`, `binding`,
`string`, `heredoc`) these characters fall to the one-character fallback and
are emitted as raw tokens. -/
theorem c5_error_class_root_only (pw : Bool) (s : List Char) :
    stepState State.root pw ('}' :: s) =
      some ⟨[(TokenKind.GenericError, ['}'])], none, s⟩ ∧
    stepState State.root pw (')' :: s) =
      some ⟨[(TokenKind.GenericError, [')'])], none, s⟩ ∧
    stepState State.block pw ('}' :: s) =
      some ⟨[(TokenKind.Str, ['}'])], none, s⟩ ∧
    stepState State.block pw (')' :: s) =
      some ⟨[(TokenKind.Str, [')'])], none, s⟩ ∧
    stepState State.params pw ('}' :: s) =
      some ⟨[(TokenKind.Str, ['}'])], none, s⟩ ∧
    stepState State.params pw (')' :: s) =
      some ⟨[(TokenKind.Str, [')'])], none, s⟩ ∧
    stepState State.binding pw ('}' :: s) =
      some ⟨[(TokenKind.Str, ['}'])], none, s⟩ ∧
    stepState State.binding pw (')' :: s) =
      some ⟨[(TokenKind.Str, [')'])], none, s⟩ ∧
    stepState State.common__1 pw ('}' :: s) =
      some ⟨[(TokenKind.Str, ['}'])], none, s⟩ ∧
    stepState State.common__2 pw (')' :: s) =
      some ⟨[(TokenKind.Str, [')'])], none, s⟩ := by
  cases pw <;>
    exact ⟨rfl, rfl, rfl, rfl, rfl, rfl, rfl, rfl, rfl, rfl⟩

/-- Claim C6: on `option::run { }` from the root state the scanner emits one
single `TypeKeyword` (`Keyword.Type`) token whose text is exactly
`option::run` — the dotted-type rule precedes the generic-identifier rule and
first match wins. -/
theorem c6_option_run_single_typekeyword :
    tokenize exOptionRun =
      [(TokenKind.KeywordType, "option::run".toList), (TokenKind.Str, [' ']),
       (TokenKind.Punctuation, ['{']), (TokenKind.Str, [' ']),
       (TokenKind.Str, ['}'])] := by
  decide

/-- Claim C7: in the `block` state, `chmod` (member of the closed field-name
set) is emitted as a builtin-field token and `0o755` as a number literal,
while `myVar` (not in the closed set) is emitted as a generic variable token
and `3` as a number literal. -/
theorem c7_block_field_classification :
    tokenizeIn State.block "chmod 0o755".toList =
      [(TokenKind.NameBuiltin, "chmod".toList), (TokenKind.Str, [' ']),
       (TokenKind.NameConstant, "0o755".toList)] ∧
    tokenizeIn State.block "myVar 3".toList =
      [(TokenKind.NameVariable, "myVar".toList), (TokenKind.Str, [' ']),
       (TokenKind.NameConstant, ['3'])] := by
  refine ⟨by decide, by decide⟩

/-- Claim C8: on input starting `<<~EOF` (tag delimited, i.e. not followed by
a further capital letter) in the root or block state, the scanner emits a
punctuation token `<<~` and a heredoc-tag token `EOF`, pushes the heredoc
state, and classifies every subsequent character as a one-character raw token
until end of input. -/
theorem c8_heredoc_tagging (s : List Char)
    (h : ∀ c, s.head? = some c → c.isUpper = false) :
    tokenize ('<' :: '<' :: '~' :: 'E' :: 'O' :: 'F' :: s) =
      (TokenKind.Punctuation, ['<', '<', '~']) ::
        (TokenKind.NameConstant, ['E', 'O', 'F']) ::
        s.map (fun c => (TokenKind.Str, [c])) ∧
    tokenizeIn State.block ('<' :: '<' :: '~' :: 'E' :: 'O' :: 'F' :: s) =
      (TokenKind.Punctuation, ['<', '<', '~']) ::
        (TokenKind.NameConstant, ['E', 'O', 'F']) ::
        s.map (fun c => (TokenKind.Str, [c])) := by
  have ht : s.takeWhile Char.isUpper = [] := by
    cases s with
    | nil => rfl
    | cons c t => exact List.takeWhile_cons_of_neg (by simp [h c rfl])
  have hd : s.dropWhile Char.isUpper = s := by
    cases s with
    | nil => rfl
    | cons c t => exact List.dropWhile_cons_of_neg (by simp [h c rfl])
  have hlen : ('<' :: '<' :: '~' :: 'E' :: 'O' :: 'F' :: s).length =
      s.length + 5 + 1 := by
    simp only [List.length_cons]
  have hstep1 : step (initConfig State.root
        ('<' :: '<' :: '~' :: 'E' :: 'O' :: 'F' :: s)) =
      some ([(TokenKind.Punctuation, ['<', '<', '~']),
             (TokenKind.NameConstant,
               'E' :: 'O' :: 'F' :: s.takeWhile Char.isUpper)],
            ⟨[State.common__2, State.root],
             nextPw false (joinPieces
               [(TokenKind.Punctuation, ['<', '<', '~']),
                (TokenKind.NameConstant,
                  'E' :: 'O' :: 'F' :: s.takeWhile Char.isUpper)]),
             s.dropWhile Char.isUpper⟩) := rfl
  have hstep2 : step (initConfig State.block
        ('<' :: '<' :: '~' :: 'E' :: 'O' :: 'F' :: s)) =
      some ([(TokenKind.Punctuation, ['<', '<', '~']),
             (TokenKind.NameConstant,
               'E' :: 'O' :: 'F' :: s.takeWhile Char.isUpper)],
            ⟨[State.common__2, State.block],
             nextPw false (joinPieces
               [(TokenKind.Punctuation, ['<', '<', '~']),
                (TokenKind.NameConstant,
                  'E' :: 'O' :: 'F' :: s.takeWhile Char.isUpper)]),
             s.dropWhile Char.isUpper⟩) := rfl
  rw [ht, hd] at hstep1 hstep2
  constructor
  · show scanAux ('<' :: '<' :: '~' :: 'E' :: 'O' :: 'F' :: s).length
        (initConfig State.root ('<' :: '<' :: '~' :: 'E' :: 'O' :: 'F' :: s)) = _
    rw [hlen, scanAux_step_some hstep1 (s.length + 5),
      scanAux_common2 (s.length + 5) s [State.root] _ (by omega)]
    rfl
  · show scanAux ('<' :: '<' :: '~' :: 'E' :: 'O' :: 'F' :: s).length
        (initConfig State.block ('<' :: '<' :: '~' :: 'E' :: 'O' :: 'F' :: s)) = _
    rw [hlen, scanAux_step_some hstep2 (s.length + 5),
      scanAux_common2 (s.length + 5) s [State.block] _ (by omega)]
    rfl

/-- Claim C8 witness: the heredoc tagging fact at the concrete continuation
`"\nhi"`. -/
theorem c8_heredoc_tagging_witness :
    tokenize ('<' :: '<' :: '~' :: 'E' :: 'O' :: 'F' :: ['\n', 'h', 'i']) =
      (TokenKind.Punctuation, ['<', '<', '~']) ::
        (TokenKind.NameConstant, ['E', 'O', 'F']) ::
        (['\n', 'h', 'i'].map (fun c => (TokenKind.Str, [c]))) ∧
    tokenizeIn State.block ('<' :: '<' :: '~' :: 'E' :: 'O' :: 'F' :: ['\n', 'h', 'i']) =
      (TokenKind.Punctuation, ['<', '<', '~']) ::
        (TokenKind.NameConstant, ['E', 'O', 'F']) ::
        (['\n', 'h', 'i'].map (fun c => (TokenKind.Str, [c]))) :=
  c8_heredoc_tagging ['\n', 'h', 'i']
    (fun c hc => by injection hc with h'; subst h'; rfl)

/-- Claim C9: a bare word with an underscore after its first character is
never matched by any identifier, function-name, or field-name rule in any
state: every identifier-shaped match has no underscore beyond its first
character (the body class is `[a-zA-Z0-9]`), so `foo_bar` is emitted as seven
separate one-character raw tokens (in root and in block), while `_foo` — with
the underscore first — is a single identifier. -/
theorem c9_underscore_identifiers :
    (∀ (pw : Bool) (s name rest : List Char),
        matchIdent pw s = some (name, rest) → '_' ∉ name.drop 1) ∧
    tokenize "foo_bar".toList =
      "foo_bar".toList.map (fun c => (TokenKind.Str, [c])) ∧
    tokenizeIn State.block "foo_bar".toList =
      "foo_bar".toList.map (fun c => (TokenKind.Str, [c])) ∧
    tokenize "_foo".toList = [(TokenKind.NameVariable, "_foo".toList)] := by
  refine ⟨?_, by decide, by decide, by decide⟩
  intro pw s name rest h
  unfold matchIdent at h
  split at h
  · cases h
  · split at h
    · next c t =>
        split at h
        · split at h
          · cases h
          · injection h with h'
            rw [Prod.mk.injEq] at h'
            obtain ⟨h1, h2⟩ := h'
            rw [← h1]
            simp only [List.drop_succ_cons, List.drop_zero]
            intro hmem
            have := List.mem_takeWhile_imp hmem
            exact absurd this (by decide)
        · cases h
    · cases h

/-- Claim C9 witness: applying the no-underscore-in-identifier-tail fact to
the concrete identifier match on `ab`. -/
theorem c9_underscore_identifiers_witness :
    '_' ∉ (['a', 'b'] : List Char).drop 1 :=
  c9_underscore_identifiers.1 false ['a', 'b'] ['a', 'b'] [] (by decide)

/-- Claim C10: in the block state `with` is a keyword only with whitespace on
both sides, and the keyword token text includes that whitespace (likewise root
`as` before `(`); a `with` at the start of a line in a block is an ordinary
variable token. -/
theorem c10_with_keyword_whitespace :
    tokenizeIn State.block " with x".toList =
      [(TokenKind.Keyword, " with ".toList), (TokenKind.NameVariable, ['x'])] ∧
    tokenizeIn State.block "with x".toList =
      [(TokenKind.NameVariable, "with".toList), (TokenKind.Str, [' ']),
       (TokenKind.NameVariable, ['x'])] ∧
    tokenizeIn State.block " with".toList =
      [(TokenKind.Str, [' ']), (TokenKind.NameVariable, "with".toList)] ∧
    tokenize " as (x)".toList =
      [(TokenKind.Keyword, " as ".toList), (TokenKind.Punctuation, ['(']),
       (TokenKind.NameVariable, ['x']), (TokenKind.Str, [')'])] := by
  refine ⟨by decide, by decide, by decide, by decide⟩

/-- Claim C8 counterexample: the heredoc tag is matched greedily by `[A-Z]+`,
so the input `<<~EOFX` (which begins with `<<~EOF`) emits the tag `EOFX`, not
a tag `EOF` followed by a raw `X`. -/
theorem c8_counterexample :
    tokenize ('<' :: '<' :: '~' :: 'E' :: 'O' :: 'F' :: ['X']) =
      [(TokenKind.Punctuation, ['<', '<', '~']),
       (TokenKind.NameConstant, ['E', 'O', 'F', 'X'])] ∧
    (TokenKind.NameConstant, ['E', 'O', 'F']) ∉
      tokenize ('<' :: '<' :: '~' :: 'E' :: 'O' :: 'F' :: ['X']) := by
  refine ⟨by decide, by decide⟩

end Hlb
